import Mathlib

/-!
Verification of the constrained-ballot voting core of the kuho-voting
application (src/app/page.tsx).  The file embeds, as executable Lean
functions, the two copies of the voting logic in the source (they are
textually identical):

* `handleVote` in `VotingPhase` (the ballot engine), together with the
  allowance computation `remainingPlus = 7 - plusUsed`,
  `remainingMinus = 1 - minusUsed` performed in `Home`;
* the tally computation in `ResultsPhase` (`results` memo).

A voter's vote map (`Record<string, number>` in the source) is embedded
as an insertion-ordered association list, matching JavaScript object
semantics for the non-integer-like Firestore document-id keys used here:
updating an existing key keeps its position, a fresh key is appended at
the end, and deletion removes the entry.
-/

namespace Kuho

/-- The `type` argument of `handleVote`: the string `plus` or `minus`. -/
inductive VoteType
  | plus
  | minus
deriving DecidableEq

/-- `userVotes : Record<string, number>` — one voter's ballot, as an
insertion-ordered association list from movie id to weight. -/
abbrev VotesMap := List (String × Int)

/-- `userVotes[movieId] || 0` — the current weight for a movie (0 when the
key is absent; a stored 0 is falsy in JS and also yields 0). -/
def getVote (m : VotesMap) (k : String) : Int :=
  match m.find? (fun p => p.1 == k) with
  | some p => p.2
  | none => 0

/-- Whether the key is present in the object. -/
def hasKey (m : VotesMap) (k : String) : Bool :=
  m.any (fun p => p.1 == k)

/-- `{ ...userVotes, [movieId]: newVote }` — JS spread plus computed key:
an existing key keeps its position and gets the new value, a fresh key is
appended at the end. -/
def setVote (m : VotesMap) (k : String) (v : Int) : VotesMap :=
  if hasKey m k then m.map (fun p => if p.1 == k then (k, v) else p)
  else m ++ [(k, v)]

/-- `Object.keys(newVotesMap).forEach(key => { if (newVotesMap[key] === 0)
delete newVotesMap[key]; })` — every zero-weight entry is removed. -/
def dropZeros (m : VotesMap) : VotesMap :=
  m.filter (fun p => p.2 != 0)

/-- `Object.values(myVotes).filter(v => v === 1).length` (in `Home`). -/
def plusUsed (m : VotesMap) : Nat :=
  (m.filter (fun p => p.2 == 1)).length

/-- `Object.values(myVotes).filter(v => v === -1).length` (in `Home`). -/
def minusUsed (m : VotesMap) : Nat :=
  (m.filter (fun p => p.2 == -1)).length

/-- `remainingPlus={7 - plusUsed}` — the prop `Home` passes to
`VotingPhase`; plain subtraction, no clamping. -/
def remainingPlus (m : VotesMap) : Int := 7 - plusUsed m

/-- `remainingMinus={1 - minusUsed}` — the prop `Home` passes to
`VotingPhase`; plain subtraction, no clamping. -/
def remainingMinus (m : VotesMap) : Int := 1 - minusUsed m

/-- `handleVote(movieId, type)` in `VotingPhase`, with the
`remainingPlus`/`remainingMinus` props instantiated to the values `Home`
computes from the same ballot.  The early `return` branches leave the
ballot unchanged; otherwise the new weight is written and all zero
entries are deleted. -/
def applyVote (userVotes : VotesMap) (movieId : String) (type : VoteType) : VotesMap :=
  match type with
  | VoteType.plus =>
    if getVote userVotes movieId = 1 then dropZeros (setVote userVotes movieId 0)
    else if remainingPlus userVotes > 0 ∨ getVote userVotes movieId = -1 then
      dropZeros (setVote userVotes movieId 1)
    else userVotes
  | VoteType.minus =>
    if getVote userVotes movieId = -1 then dropZeros (setVote userVotes movieId 0)
    else if remainingMinus userVotes > 0 ∨ getVote userVotes movieId = 1 then
      dropZeros (setVote userVotes movieId (-1))
    else userVotes

/-- The enabled-state of the vote buttons in `VotingPhase`.  The plus
button has `disabled={myVote !== 1 && remainingPlus === 0}`, so it is
enabled iff `myVote === 1 || remainingPlus !== 0`; symmetrically for the
minus button. -/
def buttonEnabled (m : VotesMap) (movieId : String) (type : VoteType) : Bool :=
  match type with
  | VoteType.plus => getVote m movieId == 1 || remainingPlus m != 0
  | VoteType.minus => getVote m movieId == -1 || remainingMinus m != 0

/-- Ballots reachable from the empty ballot by arbitrary `applyVote`
calls. -/
inductive Reachable : VotesMap → Prop
  | nil : Reachable []
  | step (m : VotesMap) (id : String) (t : VoteType) :
      Reachable m → Reachable (applyVote m id t)

/-- Ballots reachable from the empty ballot by `applyVote` calls that the
UI can actually issue (the corresponding button is enabled). -/
inductive UIReachable : VotesMap → Prop
  | nil : UIReachable []
  | step (m : VotesMap) (id : String) (t : VoteType) :
      UIReachable m → buttonEnabled m id t = true → UIReachable (applyVote m id t)

/-- The keys of an embedded JS object are pairwise distinct. -/
def keysNodup (m : VotesMap) : Prop :=
  (m.map Prod.fst).Nodup

/-- Run a list of `(movieId, type)` vote intents from a starting ballot. -/
def runScript (start : VotesMap) (script : List (String × VoteType)) : VotesMap :=
  script.foldl (fun m p => applyVote m p.1 p.2) start

/-- The fields of the `Movie` interface that the tally reads (the other
fields — link, comment, createdAt, nominatorId — are carried through
unchanged and play no role in the computation). -/
structure Movie where
  id : String
  title : String
  nominator : String
deriving DecidableEq

/-- A `VoteDoc` from the `votes` collection: the tally guards with
`if (!voteDoc.votes) return`, so the votes object may be missing. -/
structure VoteDoc where
  votes : Option VotesMap
  userName : String
deriving DecidableEq

/-- `ScoredMovie`: a movie plus its running counters in the tally. -/
structure ScoredMovie where
  id : String
  title : String
  nominator : String
  plus : Nat
  minus : Nat
  total : Int
  voters : List (String × Int)
deriving DecidableEq

/-- One iteration of the inner loop of the tally:
`const m = scores.find(s => s.id === movieId); if (m) { ... }` —
the first score with the matching id (if any) gets
`if (value === 1) m.plus++; else m.minus++; m.total += value;
m.voters.push({name, type: value})`. -/
def bumpScore (userName : String) (movieId : String) (value : Int) :
    List ScoredMovie → List ScoredMovie
  | [] => []
  | s :: rest =>
    if s.id == movieId then
      { s with
        plus := if value = 1 then s.plus + 1 else s.plus
        minus := if value = 1 then s.minus else s.minus + 1
        total := s.total + value
        voters := s.voters ++ [(userName, value)] } :: rest
    else s :: bumpScore userName movieId value rest

/-- Folding one vote document into the scores
(`Object.entries(voteDoc.votes).forEach(...)`, skipped entirely when
`voteDoc.votes` is missing). -/
def applyVoteDoc (scores : List ScoredMovie) (vd : VoteDoc) : List ScoredMovie :=
  match vd.votes with
  | none => scores
  | some vm => vm.foldl (fun sc p => bumpScore vd.userName p.1 p.2 sc) scores

/-- `movies.map(m => ({ ...m, plus: 0, minus: 0, total: 0, voters: [] }))`. -/
def initScores (movies : List Movie) : List ScoredMovie :=
  movies.map (fun mv => ⟨mv.id, mv.title, mv.nominator, 0, 0, 0, []⟩)

/-- Stable descending insertion by `total`: the element is placed before
the first element whose total is `≤` its own, i.e. after every strictly
greater element and before every equal one. -/
def insertScore (s : ScoredMovie) : List ScoredMovie → List ScoredMovie
  | [] => [s]
  | t :: rest => if t.total ≤ s.total then s :: t :: rest else t :: insertScore s rest

/-- `scores.sort((a, b) => b.total - a.total)`.  `Array.prototype.sort`
is required to be stable (ECMAScript 2019), and a stable sort by the
total preorder `compare by total, descending` has a unique result, so
this stable insertion sort is the function every compliant engine
computes. -/
def sortScores : List ScoredMovie → List ScoredMovie
  | [] => []
  | s :: rest => insertScore s (sortScores rest)

/-- The scores after folding in every vote document, before sorting. -/
def tallyUnsorted (movies : List Movie) (allVotes : List VoteDoc) : List ScoredMovie :=
  allVotes.foldl applyVoteDoc (initScores movies)

/-- The `results` memo of `ResultsPhase`. -/
def tally (movies : List Movie) (allVotes : List VoteDoc) : List ScoredMovie :=
  sortScores (tallyUnsorted movies allVotes)

/-- Whether a ballot entry references a movie present in the candidate
list. -/
def knownEntry (movies : List Movie) (p : String × Int) : Bool :=
  movies.any (fun mv => mv.id == p.1)

/-- A vote document with every entry for an unknown movie removed. -/
def dropUnknown (movies : List Movie) (vd : VoteDoc) : VoteDoc :=
  ⟨vd.votes.map (fun vm => vm.filter (knownEntry movies)), vd.userName⟩

/-- Every weight stored in a vote document is `+1` or `-1` (the only
values `handleVote` ever persists). -/
def weightsOk (vd : VoteDoc) : Bool :=
  match vd.votes with
  | none => true
  | some vm => vm.all (fun p => p.2 == 1 || p.2 == -1)

/-- Seven positive votes, one negative vote, then a positive vote on the
candidate holding the negative entry. -/
def c1Script : List (String × VoteType) :=
  [("m1", VoteType.plus), ("m2", VoteType.plus), ("m3", VoteType.plus),
   ("m4", VoteType.plus), ("m5", VoteType.plus), ("m6", VoteType.plus),
   ("m7", VoteType.plus), ("m8", VoteType.minus), ("m8", VoteType.plus)]

/-- A ballot with exactly seven +1 entries and one -1 entry. -/
def fullBallot : VotesMap :=
  [("m1", 1), ("m2", 1), ("m3", 1), ("m4", 1), ("m5", 1), ("m6", 1),
   ("m7", 1), ("m8", -1)]

/-- A ballot with exactly seven +1 entries and no -1 entry. -/
def sevenBallot : VotesMap :=
  [("m1", 1), ("m2", 1), ("m3", 1), ("m4", 1), ("m5", 1), ("m6", 1),
   ("m7", 1)]

/-- A ballot with eight +1 entries (its positive count exceeds the
limit). -/
def overBallot : VotesMap :=
  [("m1", 1), ("m2", 1), ("m3", 1), ("m4", 1), ("m5", 1), ("m6", 1),
   ("m7", 1), ("m8", 1)]

/-- A sample candidate used by concrete witnesses. -/
def movieA : Movie := ⟨"A", "Alpha", "nom"⟩

/-- A sample candidate used by concrete witnesses. -/
def movieB : Movie := ⟨"B", "Beta", "nom"⟩

/-- A vote document holding a single zero-weight entry for `movieA`. -/
def zeroWeightVotes : List VoteDoc := [⟨some [("A", 0)], "v"⟩]

/-- A vote document holding one +1 entry for `movieA`. -/
def plusAVotes : List VoteDoc := [⟨some [("A", 1)], "v"⟩]

/-- The score of `movieA` after tallying `plusAVotes`. -/
def scA : ScoredMovie := ⟨"A", "Alpha", "nom", 1, 0, 1, [("v", 1)]⟩

theorem plusUsed_eq_countP (m : VotesMap) :
    plusUsed m = m.countP (fun p => p.2 == 1) :=
  (List.countP_eq_length_filter _ _).symm

theorem minusUsed_eq_countP (m : VotesMap) :
    minusUsed m = m.countP (fun p => p.2 == -1) :=
  (List.countP_eq_length_filter _ _).symm

theorem getVote_nil (k : String) : getVote [] k = 0 := rfl

theorem getVote_cons (a : String × Int) (rest : VotesMap) (k : String) :
    getVote (a :: rest) k = if a.1 = k then a.2 else getVote rest k := by
  by_cases h : a.1 = k
  · unfold getVote
    rw [List.find?_cons_of_pos _ (by simp [h])]
    simp [h]
  · unfold getVote
    rw [List.find?_cons_of_neg _ (by simp [h])]
    simp [h]

theorem getVote_eq_zero_of_not_hasKey (m : VotesMap) (k : String)
    (h : hasKey m k = false) : getVote m k = 0 := by
  unfold getVote
  have hall : ∀ x ∈ m, ¬((fun p : String × Int => p.1 == k) x = true) := by
    intro x hx hxk
    have : m.any (fun p => p.1 == k) = true := List.any_eq_true.mpr ⟨x, hx, hxk⟩
    rw [hasKey] at h
    rw [h] at this
    cases this
  rw [List.find?_eq_none.mpr hall]

theorem hasKey_of_getVote_ne_zero (m : VotesMap) (k : String)
    (h : getVote m k ≠ 0) : hasKey m k = true := by
  by_cases hk : hasKey m k = true
  · exact hk
  · exact absurd (getVote_eq_zero_of_not_hasKey m k (by simpa using hk)) h

theorem countP_filter_ne_zero (m : VotesMap) (v : Int) (hv : v ≠ 0) :
    m.countP (fun p => (p.2 == v) && (p.2 != 0)) = m.countP (fun p => p.2 == v) := by
  apply List.countP_congr
  intro x _
  by_cases h : x.2 = v
  · simp [h, hv]
  · simp [h]

theorem plusUsed_dropZeros (m : VotesMap) : plusUsed (dropZeros m) = plusUsed m := by
  rw [plusUsed_eq_countP, plusUsed_eq_countP, dropZeros, List.countP_filter]
  exact countP_filter_ne_zero m 1 (by decide)

theorem minusUsed_dropZeros (m : VotesMap) : minusUsed (dropZeros m) = minusUsed m := by
  rw [minusUsed_eq_countP, minusUsed_eq_countP, dropZeros, List.countP_filter]
  exact countP_filter_ne_zero m (-1) (by decide)

theorem countP_setVote_le (m : VotesMap) (k : String) (v : Int)
    (q : String × Int → Bool) (hv : q (k, v) = false) :
    (setVote m k v).countP q ≤ m.countP q := by
  unfold setVote
  split
  · rw [List.countP_map]
    apply List.countP_mono_left
    intro x _ hx
    by_cases h : x.1 = k
    · exfalso
      have : (q ∘ fun p : String × Int => if p.1 == k then (k, v) else p) x = q (k, v) := by
        simp [Function.comp, h]
      rw [this, hv] at hx
      cases hx
    · have : (q ∘ fun p : String × Int => if p.1 == k then (k, v) else p) x = q x := by
        simp [Function.comp, h]
      rwa [this] at hx
  · rw [List.countP_append]
    simp [hv]

theorem plusUsed_setVote_le (m : VotesMap) (k : String) (v : Int) (hv : v ≠ 1) :
    plusUsed (setVote m k v) ≤ plusUsed m := by
  rw [plusUsed_eq_countP, plusUsed_eq_countP]
  exact countP_setVote_le m k v _ (by simp [hv])

theorem minusUsed_setVote_le (m : VotesMap) (k : String) (v : Int) (hv : v ≠ -1) :
    minusUsed (setVote m k v) ≤ minusUsed m := by
  rw [minusUsed_eq_countP, minusUsed_eq_countP]
  exact countP_setVote_le m k v _ (by simp [hv])

theorem countP_replace_le_succ (m : VotesMap) (k : String) (v : Int)
    (q : String × Int → Bool) (hnd : keysNodup m) :
    (m.map (fun p => if p.1 == k then (k, v) else p)).countP q ≤ m.countP q + 1 := by
  induction m with
  | nil => simp
  | cons a rest ih =>
    rw [keysNodup, List.map_cons, List.nodup_cons] at hnd
    obtain ⟨hka, hnd'⟩ := hnd
    rw [List.map_cons, List.countP_cons, List.countP_cons]
    by_cases h : a.1 = k
    · have hrest : rest.map (fun p => if p.1 == k then (k, v) else p) = rest := by
        have hid : rest.map (fun p => if p.1 == k then (k, v) else p)
            = rest.map (fun p => p) := by
          apply List.map_congr_left
          intro x hx
          have hxk : x.1 ≠ k := by
            intro hcontra
            apply hka
            rw [h, ← hcontra]
            exact List.mem_map.mpr ⟨x, hx, rfl⟩
          simp [hxk]
        simpa using hid
      rw [hrest]
      split_ifs <;> omega
    · have ha : (if a.1 == k then (k, v) else a) = a := by simp [h]
      rw [ha]
      have := ih hnd'
      split_ifs <;> omega

theorem plusUsed_setVote_le_succ (m : VotesMap) (k : String) (v : Int)
    (hnd : keysNodup m) : plusUsed (setVote m k v) ≤ plusUsed m + 1 := by
  rw [plusUsed_eq_countP, plusUsed_eq_countP]
  unfold setVote
  split
  · exact countP_replace_le_succ m k v _ hnd
  · rw [List.countP_append, List.countP_cons, List.countP_nil]
    split_ifs <;> omega

theorem minusUsed_setVote_le_succ (m : VotesMap) (k : String) (v : Int)
    (hnd : keysNodup m) : minusUsed (setVote m k v) ≤ minusUsed m + 1 := by
  rw [minusUsed_eq_countP, minusUsed_eq_countP]
  unfold setVote
  split
  · exact countP_replace_le_succ m k v _ hnd
  · rw [List.countP_append, List.countP_cons, List.countP_nil]
    split_ifs <;> omega

theorem keys_setVote_of_hasKey (m : VotesMap) (k : String) (v : Int)
    (h : hasKey m k = true) :
    (setVote m k v).map Prod.fst = m.map Prod.fst := by
  rw [setVote, if_pos h, List.map_map]
  apply List.map_congr_left
  intro x _
  by_cases hx : x.1 = k
  · simp [Function.comp, hx]
  · simp [Function.comp, hx]

theorem keysNodup_setVote (m : VotesMap) (k : String) (v : Int)
    (hnd : keysNodup m) : keysNodup (setVote m k v) := by
  by_cases h : hasKey m k = true
  · rw [keysNodup, keys_setVote_of_hasKey m k v h]
    exact hnd
  · rw [setVote, if_neg h, keysNodup, List.map_append, List.nodup_append]
    refine ⟨hnd, by simp, ?_⟩
    intro x hx hxk
    simp at hxk
    subst hxk
    apply h
    rw [hasKey, List.any_eq_true]
    obtain ⟨p, hp, hpk⟩ := List.mem_map.mp hx
    exact ⟨p, hp, by simp [hpk]⟩

theorem keysNodup_dropZeros (m : VotesMap) (hnd : keysNodup m) :
    keysNodup (dropZeros m) :=
  List.Nodup.sublist (List.Sublist.map Prod.fst (List.filter_sublist m)) hnd

theorem keysNodup_applyVote (m : VotesMap) (id : String) (t : VoteType)
    (hnd : keysNodup m) : keysNodup (applyVote m id t) := by
  cases t <;> simp only [applyVote] <;> split_ifs <;>
    first
      | exact hnd
      | exact keysNodup_dropZeros _ (keysNodup_setVote m id _ hnd)

theorem uiInvariant (m : VotesMap) (h : UIReachable m) :
    keysNodup m ∧ plusUsed m ≤ 7 ∧ minusUsed m ≤ 1 := by
  induction h with
  | nil => exact ⟨List.nodup_nil, by decide, by decide⟩
  | step m id t hr henb ih =>
    obtain ⟨hnd, hp, hm⟩ := ih
    refine ⟨keysNodup_applyVote m id t hnd, ?_⟩
    cases t with
    | plus =>
      simp only [applyVote]
      split_ifs with h1 h2
      · constructor
        · rw [plusUsed_dropZeros]
          exact le_trans (plusUsed_setVote_le m id 0 (by decide)) hp
        · rw [minusUsed_dropZeros]
          exact le_trans (minusUsed_setVote_le m id 0 (by decide)) hm
      · have hlt : plusUsed m < 7 := by
          simp only [buttonEnabled] at henb
          rw [Bool.or_eq_true] at henb
          rcases henb with hb | hb
          · exact absurd (by simpa using hb) h1
          · have hne : remainingPlus m ≠ 0 := by simpa using hb
            simp only [remainingPlus] at hne
            omega
        constructor
        · rw [plusUsed_dropZeros]
          have := plusUsed_setVote_le_succ m id 1 hnd
          omega
        · rw [minusUsed_dropZeros]
          exact le_trans (minusUsed_setVote_le m id 1 (by decide)) hm
      · exact ⟨hp, hm⟩
    | minus =>
      simp only [applyVote]
      split_ifs with h1 h2
      · constructor
        · rw [plusUsed_dropZeros]
          exact le_trans (plusUsed_setVote_le m id 0 (by decide)) hp
        · rw [minusUsed_dropZeros]
          exact le_trans (minusUsed_setVote_le m id 0 (by decide)) hm
      · have hlt : minusUsed m < 1 := by
          simp only [buttonEnabled] at henb
          rw [Bool.or_eq_true] at henb
          rcases henb with hb | hb
          · exact absurd (by simpa using hb) h1
          · have hne : remainingMinus m ≠ 0 := by simpa using hb
            simp only [remainingMinus] at hne
            omega
        constructor
        · rw [plusUsed_dropZeros]
          exact le_trans (plusUsed_setVote_le m id (-1) (by decide)) hp
        · rw [minusUsed_dropZeros]
          have := minusUsed_setVote_le_succ m id (-1) hnd
          omega
      · exact ⟨hp, hm⟩

theorem reachable_runScript (script : List (String × VoteType)) (start : VotesMap)
    (h : Reachable start) : Reachable (runScript start script) := by
  induction script generalizing start with
  | nil => exact h
  | cons p rest ih =>
    rw [runScript, List.foldl_cons]
    exact ih (applyVote start p.1 p.2) (Reachable.step start p.1 p.2 h)

theorem plusUsed_cons (a : String × Int) (m : VotesMap) :
    plusUsed (a :: m) = plusUsed m + (if a.2 = 1 then 1 else 0) := by
  rw [plusUsed_eq_countP, plusUsed_eq_countP, List.countP_cons]
  by_cases h : a.2 = 1 <;> simp [h]

theorem plusUsed_replace_of_neg (m : VotesMap) (k : String)
    (hnd : keysNodup m) (hk : getVote m k = -1) :
    plusUsed (m.map (fun p => if p.1 == k then (k, 1) else p)) = plusUsed m + 1 := by
  induction m with
  | nil =>
    rw [getVote_nil] at hk
    exact absurd hk (by decide)
  | cons a rest ih =>
    rw [keysNodup, List.map_cons, List.nodup_cons] at hnd
    obtain ⟨hka, hnd'⟩ := hnd
    rw [getVote_cons] at hk
    rw [List.map_cons, plusUsed_cons, plusUsed_cons]
    by_cases h : a.1 = k
    · rw [if_pos h] at hk
      have hrest : rest.map (fun p => if p.1 == k then (k, (1 : Int)) else p) = rest := by
        have hid : rest.map (fun p => if p.1 == k then (k, (1 : Int)) else p)
            = rest.map (fun p => p) := by
          apply List.map_congr_left
          intro x hx
          have hxk : x.1 ≠ k := by
            intro hcontra
            apply hka
            rw [h, ← hcontra]
            exact List.mem_map.mpr ⟨x, hx, rfl⟩
          simp [hxk]
        simpa using hid
      have hfa : (if a.1 == k then (k, (1 : Int)) else a) = (k, 1) := by simp [h]
      rw [hrest, hfa, hk]
      norm_num
    · rw [if_neg h] at hk
      have hfa : (if a.1 == k then (k, (1 : Int)) else a) = a := by simp [h]
      rw [hfa, ih hnd' hk]
      omega

theorem getVote_eq_zero_of_all_ne (m : VotesMap) (c : String)
    (h : ∀ p ∈ m, p.1 ≠ c) : getVote m c = 0 := by
  apply getVote_eq_zero_of_not_hasKey
  rw [hasKey, List.any_eq_false]
  intro x hx
  simp [h x hx]

theorem mem_dropZeros_setVote_zero (m : VotesMap) (c : String) (p : String × Int)
    (hp : p ∈ dropZeros (setVote m c 0)) : p.1 ≠ c ∧ p.2 ≠ 0 := by
  rw [dropZeros, List.mem_filter] at hp
  obtain ⟨hmem, hnz⟩ := hp
  have hnz' : p.2 ≠ 0 := by simpa using hnz
  refine ⟨?_, hnz'⟩
  rw [setVote] at hmem
  split at hmem
  · obtain ⟨x, hx, hfx⟩ := List.mem_map.mp hmem
    by_cases hxc : x.1 = c
    · exfalso
      apply hnz'
      rw [← hfx]
      simp [hxc]
    · rw [← hfx]
      simp [hxc]
  · rename_i hkey
    rw [List.mem_append] at hmem
    rcases hmem with hmem | hmem
    · intro hpc
      apply hkey
      rw [hasKey, List.any_eq_true]
      exact ⟨p, hmem, by simp [hpc]⟩
    · rw [List.mem_singleton] at hmem
      exact absurd (by rw [hmem]) hnz'

/-- C1 counterexample: the claimed invariant fails for unrestricted
`applyVote` sequences.  Casting seven positive votes, one negative vote,
and then a positive vote on the negative-held candidate — the last step
taken although the positive allowance is exhausted, via the
`currentVote === -1` escape in `handleVote` — yields a ballot reachable
from the empty ballot whose +1 count is 8, not at most 7. -/
theorem c1_counterexample :
    Reachable (runScript [] c1Script) ∧ ¬ plusUsed (runScript [] c1Script) ≤ 7 :=
  ⟨reachable_runScript c1Script [] Reachable.nil, by decide⟩

/-- C1 (amended): for every ballot reachable from the empty ballot by
`applyVote` calls that the UI permits (the vote button for that candidate
and direction is enabled), the number of +1 entries is at most 7 and the
number of -1 entries is at most 1. -/
theorem c1_ui_invariant (m : VotesMap) (h : UIReachable m) :
    plusUsed m ≤ 7 ∧ minusUsed m ≤ 1 :=
  (uiInvariant m h).2

/-- C1 witness: the amended invariant at the concrete ballot obtained by
one enabled positive vote from the empty ballot. -/
theorem c1_ui_invariant_witness :
    plusUsed (applyVote [] "a" VoteType.plus) ≤ 7
      ∧ minusUsed (applyVote [] "a" VoteType.plus) ≤ 1 :=
  c1_ui_invariant (applyVote [] "a" VoteType.plus)
    (UIReachable.step [] "a" VoteType.plus UIReachable.nil (by decide))

/-- C2 counterexample: on a ballot with exactly seven +1 entries and one
-1 entry, a positive vote on the negative-held candidate leaves a
remaining positive allowance of -1, not 0 as claimed (the entry count
grows to eight +1 entries and the allowance is unclamped subtraction). -/
theorem c2_counterexample :
    remainingPlus (applyVote fullBallot "m8" VoteType.plus) = -1
      ∧ remainingPlus (applyVote fullBallot "m8" VoteType.plus) ≠ 0 := by
  constructor <;> decide

/-- C2 (amended): for a ballot with key-distinct entries all weighted
±1, exactly seven of them +1 and one of them -1, a positive vote on the
candidate holding the -1 entry converts exactly that entry to +1 and
leaves every other entry unchanged; the resulting ballot has eight +1
entries, so its remaining positive allowance is -1 (not 0). -/
theorem c2_exchange (m : VotesMap) (c : String)
    (hnd : keysNodup m)
    (hall : ∀ p ∈ m, p.2 = 1 ∨ p.2 = -1)
    (hp : plusUsed m = 7) (_hm : minusUsed m = 1)
    (hc : getVote m c = -1) :
    applyVote m c VoteType.plus = m.map (fun p => if p.1 == c then (c, 1) else p)
      ∧ plusUsed (applyVote m c VoteType.plus) = 8
      ∧ remainingPlus (applyVote m c VoteType.plus) = -1 := by
  have h1 : ¬ getVote m c = 1 := by
    rw [hc]
    decide
  have hkey : hasKey m c = true := by
    apply hasKey_of_getVote_ne_zero
    rw [hc]
    decide
  have happ : applyVote m c VoteType.plus = dropZeros (setVote m c 1) := by
    simp only [applyVote]
    rw [if_neg h1, if_pos (Or.inr hc)]
  have hset : setVote m c 1 = m.map (fun p => if p.1 == c then (c, 1) else p) := by
    rw [setVote, if_pos hkey]
  have hdrop : dropZeros (m.map (fun p => if p.1 == c then (c, (1 : Int)) else p))
      = m.map (fun p => if p.1 == c then (c, 1) else p) := by
    rw [dropZeros, List.filter_eq_self]
    intro y hy
    obtain ⟨x, hx, hfx⟩ := List.mem_map.mp hy
    rw [← hfx]
    by_cases hxc : x.1 = c
    · simp [hxc]
    · rcases hall x hx with h | h <;> simp [hxc, h]
  have heq : applyVote m c VoteType.plus
      = m.map (fun p => if p.1 == c then (c, 1) else p) := by
    rw [happ, hset, hdrop]
  refine ⟨heq, ?_, ?_⟩
  · rw [heq, plusUsed_replace_of_neg m c hnd hc, hp]
  · rw [remainingPlus, heq, plusUsed_replace_of_neg m c hnd hc, hp]
    decide

/-- C2 witness: the amended statement at the concrete ballot with seven
+1 entries and one -1 entry. -/
theorem c2_exchange_witness :
    applyVote fullBallot "m8" VoteType.plus
        = fullBallot.map (fun p => if p.1 == "m8" then ("m8", (1 : Int)) else p)
      ∧ plusUsed (applyVote fullBallot "m8" VoteType.plus) = 8
      ∧ remainingPlus (applyVote fullBallot "m8" VoteType.plus) = -1 :=
  c2_exchange fullBallot "m8" (by unfold keysNodup; decide) (by decide) (by decide)
    (by decide) (by decide)

/-- C3 counterexample: `handleVote` never consults the candidate list.
With an empty candidate list every id is unknown, yet a positive intent
on the empty ballot is not ignored: it creates a fresh +1 entry for the
unknown id. -/
theorem c3_counterexample :
    (([] : List Movie).all (fun mv => mv.id != "ghost")) = true
      ∧ applyVote [] "ghost" VoteType.plus = [("ghost", 1)]
      ∧ applyVote [] "ghost" VoteType.plus ≠ [] := by
  refine ⟨by decide, by decide, by decide⟩

/-- C3 (amended): `applyVote` applies the same rules to every
candidateId, known or not.  For an id with no entry in the ballot, a
positive intent with positive allowance remaining appends a fresh +1
entry (and symmetrically for a negative intent); unknown ids are instead
silently dropped later, by the tally. -/
theorem c3_no_candidate_check (m : VotesMap) (id : String)
    (hk : hasKey m id = false) :
    (remainingPlus m > 0 → applyVote m id VoteType.plus = dropZeros m ++ [(id, 1)])
      ∧ (remainingMinus m > 0 →
          applyVote m id VoteType.minus = dropZeros m ++ [(id, -1)]) := by
  have h0 : getVote m id = 0 := getVote_eq_zero_of_not_hasKey m id hk
  constructor
  · intro hrp
    simp only [applyVote]
    rw [if_neg (by rw [h0]; decide), if_pos (Or.inl hrp), setVote,
      if_neg (by simp [hk])]
    simp only [dropZeros, List.filter_append]
    simp
  · intro hrm
    simp only [applyVote]
    rw [if_neg (by rw [h0]; decide), if_pos (Or.inl hrm), setVote,
      if_neg (by simp [hk])]
    simp only [dropZeros, List.filter_append]
    simp

/-- C3 witness: the amended statement at the empty ballot and the unknown
id. -/
theorem c3_no_candidate_check_witness :
    applyVote [] "ghost" VoteType.plus = dropZeros [] ++ [("ghost", 1)]
      ∧ applyVote [] "ghost" VoteType.minus = dropZeros [] ++ [("ghost", -1)] :=
  ⟨(c3_no_candidate_check [] "ghost" (by decide)).1 (by decide),
   (c3_no_candidate_check [] "ghost" (by decide)).2 (by decide)⟩

/-- C4 counterexample: the allowance computation is not clamped.  On a
ballot with eight +1 entries the remaining positive allowance is -1,
contradicting the claim that it is never negative. -/
theorem c4_counterexample : remainingPlus overBallot < 0 := by decide

/-- C4 (amended): for every ballot, the remaining allowances are the
unclamped subtractions MAX_POSITIVE - plusUsed and
MAX_NEGATIVE - minusUsed; they are nonnegative exactly when the counts
are within the limits, and negative whenever the counts exceed them. -/
theorem c4_allowance (m : VotesMap) :
    remainingPlus m = 7 - (plusUsed m : Int)
      ∧ remainingMinus m = 1 - (minusUsed m : Int)
      ∧ (plusUsed m ≤ 7 → 0 ≤ remainingPlus m)
      ∧ (minusUsed m ≤ 1 → 0 ≤ remainingMinus m)
      ∧ (7 < plusUsed m → remainingPlus m < 0)
      ∧ (1 < minusUsed m → remainingMinus m < 0) := by
  refine ⟨rfl, rfl, ?_, ?_, ?_, ?_⟩ <;>
    (intro h; simp only [remainingPlus, remainingMinus]; omega)

/-- C4 witness: the amended statement at the ballot with eight +1
entries. -/
theorem c4_allowance_witness :
    7 < plusUsed overBallot ∧ remainingPlus overBallot < 0 :=
  ⟨by decide, (c4_allowance overBallot).2.2.2.2.1 (by decide)⟩

/-- C6 (confirmed): a positive vote on a candidate currently weighted +1
writes weight 0 and the zero-deletion pass removes the entry, so the
candidate is gone from the result and no zero-weight entry (that one or
any pre-existing one) survives; symmetrically for a negative vote on a
candidate weighted -1. -/
theorem c6_toggle_removes (m : VotesMap) (c : String) :
    (getVote m c = 1 →
        getVote (applyVote m c VoteType.plus) c = 0
          ∧ ∀ p ∈ applyVote m c VoteType.plus, p.1 ≠ c ∧ p.2 ≠ 0)
      ∧ (getVote m c = -1 →
        getVote (applyVote m c VoteType.minus) c = 0
          ∧ ∀ p ∈ applyVote m c VoteType.minus, p.1 ≠ c ∧ p.2 ≠ 0) := by
  constructor
  · intro hc
    have happ : applyVote m c VoteType.plus = dropZeros (setVote m c 0) := by
      simp only [applyVote]
      rw [if_pos hc]
    have hmem : ∀ p ∈ applyVote m c VoteType.plus, p.1 ≠ c ∧ p.2 ≠ 0 := by
      intro p hp
      rw [happ] at hp
      exact mem_dropZeros_setVote_zero m c p hp
    exact ⟨getVote_eq_zero_of_all_ne _ c (fun p hp => (hmem p hp).1), hmem⟩
  · intro hc
    have happ : applyVote m c VoteType.minus = dropZeros (setVote m c 0) := by
      simp only [applyVote]
      rw [if_pos hc]
    have hmem : ∀ p ∈ applyVote m c VoteType.minus, p.1 ≠ c ∧ p.2 ≠ 0 := by
      intro p hp
      rw [happ] at hp
      exact mem_dropZeros_setVote_zero m c p hp
    exact ⟨getVote_eq_zero_of_all_ne _ c (fun p hp => (hmem p hp).1), hmem⟩

/-- C6 witness: toggling off the single +1 entry of a one-entry ballot. -/
theorem c6_toggle_removes_witness :
    getVote (applyVote [("a", 1)] "a" VoteType.plus) "a" = 0
      ∧ ∀ p ∈ applyVote [("a", 1)] "a" VoteType.plus, p.1 ≠ "a" ∧ p.2 ≠ 0 :=
  (c6_toggle_removes [("a", 1)] "a").1 (by decide)

/-- C7 (confirmed): on a ballot with seven +1 entries and no -1 entry, a
positive vote on a candidate with no current entry is a no-op: the
returned ballot is the input ballot. -/
theorem c7_exhausted_noop (m : VotesMap) (c : String)
    (hp : plusUsed m = 7) (_hm : minusUsed m = 0) (hc : hasKey m c = false) :
    applyVote m c VoteType.plus = m := by
  have h0 : getVote m c = 0 := getVote_eq_zero_of_not_hasKey m c hc
  have hcond : ¬ (remainingPlus m > 0 ∨ getVote m c = -1) := by
    rintro (hgt | hneg)
    · simp only [remainingPlus, hp] at hgt
      omega
    · rw [h0] at hneg
      exact absurd hneg (by decide)
  simp only [applyVote]
  rw [if_neg (by rw [h0]; decide), if_neg hcond]

/-- C7 witness: the statement at the concrete seven-positive ballot and a
fresh candidate id. -/
theorem c7_exhausted_noop_witness :
    applyVote sevenBallot "m8" VoteType.plus = sevenBallot :=
  c7_exhausted_noop sevenBallot "m8" (by decide) (by decide) (by decide)

theorem mem_insertScore (s : ScoredMovie) (l : List ScoredMovie) (x : ScoredMovie) :
    x ∈ insertScore s l ↔ x = s ∨ x ∈ l := by
  induction l with
  | nil => simp [insertScore]
  | cons t rest ih =>
    rw [insertScore]
    split_ifs with h
    · simp [List.mem_cons]
    · simp only [List.mem_cons, ih]
      tauto

theorem sorted_insertScore (s : ScoredMovie) (l : List ScoredMovie)
    (hl : List.Sorted (fun a b : ScoredMovie => b.total ≤ a.total) l) :
    List.Sorted (fun a b : ScoredMovie => b.total ≤ a.total) (insertScore s l) := by
  induction l with
  | nil => simp [insertScore]
  | cons t rest ih =>
    rw [List.sorted_cons] at hl
    obtain ⟨ht, hrest⟩ := hl
    rw [insertScore]
    split_ifs with h
    · rw [List.sorted_cons]
      constructor
      · intro b hb
        rcases List.mem_cons.mp hb with rfl | hb
        · exact h
        · exact le_trans (ht b hb) h
      · rw [List.sorted_cons]
        exact ⟨ht, hrest⟩
    · rw [List.sorted_cons]
      refine ⟨?_, ih hrest⟩
      intro b hb
      rcases (mem_insertScore s rest b).mp hb with rfl | hb
      · omega
      · exact ht b hb

theorem sorted_sortScores (l : List ScoredMovie) :
    List.Sorted (fun a b : ScoredMovie => b.total ≤ a.total) (sortScores l) := by
  induction l with
  | nil => simp [sortScores]
  | cons s rest ih =>
    rw [sortScores]
    exact sorted_insertScore s _ ih

theorem mem_sortScores (l : List ScoredMovie) (x : ScoredMovie) :
    x ∈ sortScores l ↔ x ∈ l := by
  induction l with
  | nil => simp [sortScores]
  | cons s rest ih =>
    rw [sortScores, mem_insertScore, ih]
    simp [List.mem_cons]

theorem filter_insertScore (s : ScoredMovie) (l : List ScoredMovie) (t : Int) :
    (insertScore s l).filter (fun x => x.total == t)
      = if s.total = t then s :: l.filter (fun x => x.total == t)
        else l.filter (fun x => x.total == t) := by
  induction l with
  | nil =>
    rw [insertScore]
    by_cases h : s.total = t
    · rw [if_pos h]
      simp [List.filter_cons, h]
    · rw [if_neg h]
      simp [List.filter_cons, h]
  | cons a rest ih =>
    rw [insertScore]
    by_cases hle : a.total ≤ s.total
    · rw [if_pos hle]
      by_cases h : s.total = t
      · rw [if_pos h]
        simp [List.filter_cons, h]
      · rw [if_neg h]
        simp [List.filter_cons, h]
    · rw [if_neg hle]
      by_cases h : s.total = t
      · have hat : a.total ≠ t := by omega
        rw [if_pos h]
        simp [List.filter_cons, ih, h, hat]
      · rw [if_neg h]
        simp [List.filter_cons, ih, h]

theorem filter_sortScores (l : List ScoredMovie) (t : Int) :
    (sortScores l).filter (fun x => x.total == t)
      = l.filter (fun x => x.total == t) := by
  induction l with
  | nil => rfl
  | cons s rest ih =>
    rw [sortScores, filter_insertScore, List.filter_cons]
    by_cases h : s.total = t <;> simp [h, ih]

theorem bumpScore_map_id (u k : String) (v : Int) (l : List ScoredMovie) :
    (bumpScore u k v l).map ScoredMovie.id = l.map ScoredMovie.id := by
  induction l with
  | nil => rfl
  | cons s rest ih =>
    rw [bumpScore]
    by_cases h : (s.id == k) = true
    · rw [if_pos h]
      rfl
    · rw [if_neg h, List.map_cons, List.map_cons, ih]

theorem foldl_bump_map_id (u : String) (vm : VotesMap) (sc : List ScoredMovie) :
    (vm.foldl (fun l p => bumpScore u p.1 p.2 l) sc).map ScoredMovie.id
      = sc.map ScoredMovie.id := by
  induction vm generalizing sc with
  | nil => rfl
  | cons p rest ih =>
    rw [List.foldl_cons, ih, bumpScore_map_id]

theorem applyVoteDoc_map_id (sc : List ScoredMovie) (vd : VoteDoc) :
    (applyVoteDoc sc vd).map ScoredMovie.id = sc.map ScoredMovie.id := by
  cases hvd : vd.votes with
  | none => simp [applyVoteDoc, hvd]
  | some vm =>
    simp only [applyVoteDoc, hvd]
    exact foldl_bump_map_id _ _ _

theorem initScores_map_id (movies : List Movie) :
    (initScores movies).map ScoredMovie.id = movies.map Movie.id := by
  rw [initScores, List.map_map]
  rfl

theorem tallyUnsorted_map_id (movies : List Movie) (allVotes : List VoteDoc) :
    (tallyUnsorted movies allVotes).map ScoredMovie.id = movies.map Movie.id := by
  rw [tallyUnsorted]
  have hfold : ∀ (vs : List VoteDoc) (sc : List ScoredMovie),
      (vs.foldl applyVoteDoc sc).map ScoredMovie.id = sc.map ScoredMovie.id := by
    intro vs
    induction vs with
    | nil => intro sc; rfl
    | cons vd rest ih =>
      intro sc
      rw [List.foldl_cons, ih, applyVoteDoc_map_id]
  rw [hfold, initScores_map_id]

/-- C5 (confirmed): the tally output is sorted by descending total; for
each total value the output lists exactly the pre-sort scores with that
total, in their pre-sort order; and the pre-sort scores carry the ids of
the input candidate list in its original order.  Together: equal-total
candidates appear in the relative order of the input candidate list. -/
theorem c5_sorted_stable (movies : List Movie) (allVotes : List VoteDoc) :
    List.Sorted (fun a b : ScoredMovie => b.total ≤ a.total) (tally movies allVotes)
      ∧ (∀ t : Int, (tally movies allVotes).filter (fun s => s.total == t)
          = (tallyUnsorted movies allVotes).filter (fun s => s.total == t))
      ∧ (tallyUnsorted movies allVotes).map ScoredMovie.id = movies.map Movie.id :=
  ⟨sorted_sortScores _, fun t => filter_sortScores _ t,
    tallyUnsorted_map_id movies allVotes⟩

theorem bumpScore_of_no_id (u k : String) (v : Int) (l : List ScoredMovie)
    (h : ∀ s ∈ l, s.id ≠ k) : bumpScore u k v l = l := by
  induction l with
  | nil => rfl
  | cons s rest ih =>
    rw [bumpScore, if_neg (by simp [h s (List.mem_cons_self s rest)]),
      ih (fun x hx => h x (List.mem_cons_of_mem s hx))]

theorem foldl_bump_filter_known (movies : List Movie) (u : String) (vm : VotesMap)
    (sc : List ScoredMovie) (hid : sc.map ScoredMovie.id = movies.map Movie.id) :
    (vm.filter (knownEntry movies)).foldl (fun l p => bumpScore u p.1 p.2 l) sc
      = vm.foldl (fun l p => bumpScore u p.1 p.2 l) sc := by
  induction vm generalizing sc with
  | nil => rfl
  | cons p rest ih =>
    rw [List.filter_cons, List.foldl_cons]
    by_cases hk : knownEntry movies p = true
    · rw [if_pos hk, List.foldl_cons]
      apply ih
      rw [bumpScore_map_id]
      exact hid
    · rw [if_neg hk]
      have hno : ∀ s ∈ sc, s.id ≠ p.1 := by
        intro s hs hcontra
        apply hk
        rw [knownEntry, List.any_eq_true]
        have hsid : s.id ∈ movies.map Movie.id := by
          rw [← hid]
          exact List.mem_map.mpr ⟨s, hs, rfl⟩
        obtain ⟨mv, hmv, hmvid⟩ := List.mem_map.mp hsid
        exact ⟨mv, hmv, by simp [hmvid, hcontra]⟩
      rw [bumpScore_of_no_id u p.1 p.2 sc hno]
      exact ih sc hid

theorem applyVoteDoc_dropUnknown (movies : List Movie) (sc : List ScoredMovie)
    (vd : VoteDoc) (hid : sc.map ScoredMovie.id = movies.map Movie.id) :
    applyVoteDoc sc (dropUnknown movies vd) = applyVoteDoc sc vd := by
  cases hvd : vd.votes with
  | none =>
    have h1 : (dropUnknown movies vd).votes = none := by
      rw [dropUnknown]
      simp [hvd]
    simp [applyVoteDoc, h1, hvd]
  | some vm =>
    have h1 : (dropUnknown movies vd).votes = some (vm.filter (knownEntry movies)) := by
      rw [dropUnknown]
      simp [hvd]
    have h2 : (dropUnknown movies vd).userName = vd.userName := rfl
    simp only [applyVoteDoc, h1, hvd, h2]
    exact foldl_bump_filter_known movies vd.userName vm sc hid

/-- C8 (confirmed): ballot entries whose candidateId matches no candidate
contribute nothing to the tally — removing every unknown-id entry from
every vote document leaves the tally output unchanged (and the tally is
total, so such entries never cause a failure). -/
theorem c8_unknown_dropped (movies : List Movie) (allVotes : List VoteDoc) :
    tally movies (allVotes.map (dropUnknown movies)) = tally movies allVotes := by
  rw [tally, tally, tallyUnsorted, tallyUnsorted]
  have hfold : ∀ (vs : List VoteDoc) (sc : List ScoredMovie),
      sc.map ScoredMovie.id = movies.map Movie.id →
      (vs.map (dropUnknown movies)).foldl applyVoteDoc sc = vs.foldl applyVoteDoc sc := by
    intro vs
    induction vs with
    | nil => intro sc _; rfl
    | cons vd rest ih =>
      intro sc hid
      rw [List.map_cons, List.foldl_cons, List.foldl_cons,
        applyVoteDoc_dropUnknown movies sc vd hid]
      apply ih
      rw [applyVoteDoc_map_id]
      exact hid
  rw [hfold allVotes (initScores movies) (initScores_map_id movies)]

/-- C9 (confirmed): the tally is a pure function of the candidate list
and the vote documents — identical inputs give identical outputs,
including each score's voter breakdown sequence. -/
theorem c9_deterministic (movies1 movies2 : List Movie)
    (votes1 votes2 : List VoteDoc) (hm : movies1 = movies2) (hv : votes1 = votes2) :
    tally movies1 votes1 = tally movies2 votes2
      ∧ (tally movies1 votes1).map ScoredMovie.voters
          = (tally movies2 votes2).map ScoredMovie.voters := by
  subst hm
  subst hv
  exact ⟨rfl, rfl⟩

/-- C9 witness: determinism at a concrete one-candidate, one-ballot
input. -/
theorem c9_deterministic_witness :
    tally [movieA] plusAVotes = tally [movieA] plusAVotes
      ∧ (tally [movieA] plusAVotes).map ScoredMovie.voters
          = (tally [movieA] plusAVotes).map ScoredMovie.voters :=
  c9_deterministic [movieA] [movieA] plusAVotes plusAVotes rfl rfl

theorem bumpScore_total_eq (u k : String) (v : Int) (l : List ScoredMovie)
    (hv : v = 1 ∨ v = -1)
    (hl : ∀ s ∈ l, s.total = (s.plus : Int) - (s.minus : Int)) :
    ∀ s ∈ bumpScore u k v l, s.total = (s.plus : Int) - (s.minus : Int) := by
  induction l with
  | nil =>
    intro s hs
    rw [bumpScore] at hs
    cases hs
  | cons a rest ih =>
    intro s hs
    rw [bumpScore] at hs
    by_cases h : (a.id == k) = true
    · rw [if_pos h] at hs
      rcases List.mem_cons.mp hs with rfl | hs
      · have ha := hl a (List.mem_cons_self a rest)
        rcases hv with rfl | rfl
        · simp only [if_pos rfl]
          push_cast
          omega
        · rw [if_neg (by decide)]
          push_cast
          omega
      · exact hl s (List.mem_cons_of_mem a hs)
    · rw [if_neg h] at hs
      rcases List.mem_cons.mp hs with rfl | hs
      · exact hl s (List.mem_cons_self s rest)
      · exact ih (fun x hx => hl x (List.mem_cons_of_mem a hx)) s hs

theorem applyVoteDoc_total_eq (sc : List ScoredMovie) (vd : VoteDoc)
    (hok : weightsOk vd = true)
    (hl : ∀ s ∈ sc, s.total = (s.plus : Int) - (s.minus : Int)) :
    ∀ s ∈ applyVoteDoc sc vd, s.total = (s.plus : Int) - (s.minus : Int) := by
  cases hvd : vd.votes with
  | none =>
    simp only [applyVoteDoc, hvd]
    exact hl
  | some vm =>
    simp only [applyVoteDoc, hvd]
    have hw : ∀ p ∈ vm, p.2 = 1 ∨ p.2 = -1 := by
      simp only [weightsOk, hvd, List.all_eq_true] at hok
      intro p hp
      have := hok p hp
      rcases Bool.or_eq_true _ _ |>.mp this with h | h
      · exact Or.inl (by simpa using h)
      · exact Or.inr (by simpa using h)
    have hfold : ∀ (vm' : VotesMap) (sc' : List ScoredMovie),
        (∀ p ∈ vm', p.2 = 1 ∨ p.2 = -1) →
        (∀ s ∈ sc', s.total = (s.plus : Int) - (s.minus : Int)) →
        ∀ s ∈ vm'.foldl (fun l p => bumpScore vd.userName p.1 p.2 l) sc',
          s.total = (s.plus : Int) - (s.minus : Int) := by
      intro vm'
      induction vm' with
      | nil => intro sc' _ hsc'; exact hsc'
      | cons p rest ih =>
        intro sc' hw' hsc'
        rw [List.foldl_cons]
        exact ih _ (fun q hq => hw' q (List.mem_cons_of_mem p hq))
          (bumpScore_total_eq vd.userName p.1 p.2 sc'
            (hw' p (List.mem_cons_self p rest)) hsc')
    exact hfold vm sc hw hl

theorem initScores_total_eq (movies : List Movie) :
    ∀ s ∈ initScores movies, s.total = (s.plus : Int) - (s.minus : Int) := by
  intro s hs
  rw [initScores] at hs
  obtain ⟨mv, _, rfl⟩ := List.mem_map.mp hs
  simp

/-- C10 (confirmed): when every stored weight is +1 or -1, every tallied
score satisfies total = positiveCount - negativeCount; and the
`value === 1` branch treats any other weight as negative, so a
zero-weight entry increments the negative count while leaving the total
unmoved, breaking the equation — at the concrete zero-weight input the
single score has plus 0, minus 1, total 0 ≠ 0 - 1. -/
theorem c10_total_consistency :
    (∀ (movies : List Movie) (allVotes : List VoteDoc),
        (∀ vd ∈ allVotes, weightsOk vd = true) →
        ∀ s ∈ tally movies allVotes, s.total = (s.plus : Int) - (s.minus : Int))
      ∧ (∀ s ∈ tally [movieA] zeroWeightVotes,
          s.plus = 0 ∧ s.minus = 1 ∧ s.total = 0
            ∧ s.total ≠ (s.plus : Int) - (s.minus : Int)) := by
  constructor
  · intro movies allVotes hok s hs
    rw [tally, mem_sortScores] at hs
    have hfold : ∀ (vs : List VoteDoc) (sc : List ScoredMovie),
        (∀ vd ∈ vs, weightsOk vd = true) →
        (∀ x ∈ sc, x.total = (x.plus : Int) - (x.minus : Int)) →
        ∀ x ∈ vs.foldl applyVoteDoc sc, x.total = (x.plus : Int) - (x.minus : Int) := by
      intro vs
      induction vs with
      | nil => intro sc _ hsc; exact hsc
      | cons vd rest ih =>
        intro sc hok' hsc
        rw [List.foldl_cons]
        exact ih _ (fun v hv => hok' v (List.mem_cons_of_mem vd hv))
          (applyVoteDoc_total_eq sc vd (hok' vd (List.mem_cons_self vd rest)) hsc)
    exact hfold allVotes (initScores movies) hok (initScores_total_eq movies) s hs
  · decide

/-- C10 witness: the valid-weights half applied at the concrete
one-candidate, one-positive-vote input. -/
theorem c10_total_consistency_witness :
    scA ∈ tally [movieA] plusAVotes
      ∧ scA.total = (scA.plus : Int) - (scA.minus : Int) :=
  ⟨by decide,
   c10_total_consistency.1 [movieA] plusAVotes (by decide) scA (by decide)⟩

end Kuho
